import Mathlib

/-!
Shallow embedding of the core of the ACT Chain node (state manager,
consensus engine, mempool) and proofs about the spec's claims.

`HashMap<String, V>` collections are modelled as association lists with
map semantics (`lookupKey` / `insertKey` / `eraseKey`); `u64`/`u128`
quantities are modelled as `Nat` (debits are guarded by balance checks in
the source, so no wrap-around arises on any path a claim talks about;
the one overflow-sensitive spot, `height * 31` in proposer selection, is
modelled with an explicit `% 2^64`).  Fallible operations return an
`Except` tagged result together with the post-call state; the error
branches return the input state exactly where the Rust early-returns
leave `self` untouched.
-/

/-- Association-list lookup, mirroring `HashMap::get`. -/
def lookupKey {κ α : Type} [DecidableEq κ] : List (κ × α) → κ → Option α
  | [], _ => none
  | (k, v) :: rest, key => if k = key then some v else lookupKey rest key

/-- Association-list insert-or-replace, mirroring `HashMap::insert`. -/
def insertKey {κ α : Type} [DecidableEq κ] : List (κ × α) → κ → α → List (κ × α)
  | [], key, val => [(key, val)]
  | (k, v) :: rest, key, val =>
    if k = key then (key, val) :: rest else (k, v) :: insertKey rest key val

/-- Association-list delete, mirroring `HashMap::remove` (keys are kept
unique by `insertKey`, so removing the first occurrence is the map
semantics). -/
def eraseKey {κ α : Type} [DecidableEq κ] : List (κ × α) → κ → List (κ × α)
  | [], _ => []
  | (k, v) :: rest, key => if k = key then rest else (k, v) :: eraseKey rest key

/-- Push onto the queue stored under `key`, creating the queue when
absent: mirrors `map.entry(key).or_insert_with(new).push_back(x)`. -/
def pushEntry {κ α : Type} [DecidableEq κ] : List (κ × List α) → κ → α → List (κ × List α)
  | [], key, x => [(key, [x])]
  | (k, q) :: rest, key, x =>
    if k = key then (k, q ++ [x]) :: rest else (k, q) :: pushEntry rest key x

/-- Account state in ACT Chain (`types::Account`). -/
structure Account where
  address : String
  balance : Nat
  nonce : Nat
  code_hash : Option String
  storage_root : Option String
  deriving DecidableEq, Repr

/-- Embedding of `Account::new`: fresh zero-balance, zero-nonce account. -/
def Account.new (address : String) : Account :=
  { address := address, balance := 0, nonce := 0, code_hash := none, storage_root := none }

/-- The in-memory account map owned by `StateManager` (`self.accounts`). -/
structure LedgerState where
  accounts : List (String × Account)
  deriving DecidableEq, Repr

/-- Errors surfaced by `StateManager` operations. -/
inductive StateError where
  | insufficientBalance (has needs : Nat)
  | deployerNotFound
  deriving DecidableEq, Repr

/-- Embedding of `StateManager::transfer`: it clones (or zero-defaults) both accounts,
fails if the sender's balance is below `amount`, otherwise debits the
sender clone, credits the receiver clone and writes both back (sender
first, receiver second). -/
def transfer (st : LedgerState) (fromAddr toAddr : String) (amount : Nat) :
    Except StateError Unit × LedgerState :=
  let from_account := (lookupKey st.accounts fromAddr).getD (Account.new fromAddr)
  let to_account := (lookupKey st.accounts toAddr).getD (Account.new toAddr)
  if from_account.balance < amount then
    (Except.error (StateError.insufficientBalance from_account.balance amount), st)
  else
    let from_account := { from_account with balance := from_account.balance - amount }
    let to_account := { to_account with balance := to_account.balance + amount }
    (Except.ok (),
      { accounts := insertKey (insertKey st.accounts fromAddr from_account) toAddr to_account })

/-- Embedding of `StateManager::increment_nonce`: loads (or zero-defaults) the
account, bumps its nonce by 1 and writes it back. -/
def increment_nonce (st : LedgerState) (address : String) : LedgerState :=
  let account := (lookupKey st.accounts address).getD (Account.new address)
  let account := { account with nonce := account.nonce + 1 }
  { accounts := insertKey st.accounts address account }

/-- Embedding of `StateManager::get_balance` (the cache layer always resolves to the
authoritative account map in this single-threaded model). -/
def get_balance (st : LedgerState) (address : String) : Nat :=
  ((lookupKey st.accounts address).getD (Account.new address)).balance

/-- Embedding of `StateManager::get_nonce`. -/
def get_nonce (st : LedgerState) (address : String) : Nat :=
  ((lookupKey st.accounts address).getD (Account.new address)).nonce

/-- Embedding of `StateManager::get_total_supply`: sum of all balances in the map. -/
def get_total_supply (st : LedgerState) : Nat :=
  (st.accounts.map (fun p => p.2.balance)).sum

/-- Embedding of `StateManager::deploy_contract`: fails (without defaulting) when the
deployer is absent from the account map; otherwise inserts a contract
account at the derived address.  The address derivation and the code
hash (SHA-256 / base58 in the source) enter as opaque parameters — only
which account is created depends on the claims. -/
def deploy_contract (calcAddr : String → Nat → String) (hashCode : List Nat → String)
    (st : LedgerState) (deployer : String) (code : List Nat) (initial_balance : Nat) :
    Except StateError String × LedgerState :=
  match lookupKey st.accounts deployer with
  | none => (Except.error StateError.deployerNotFound, st)
  | some deployer_account =>
    let contract_address := calcAddr deployer deployer_account.nonce
    let contract_account : Account :=
      { address := contract_address, balance := initial_balance, nonce := 0,
        code_hash := some (hashCode code), storage_root := some "empty_storage" }
    (Except.ok contract_address,
      { accounts := insertKey st.accounts contract_address contract_account })

/-- A concrete one-account ledger used to exercise the transfer path. -/
def ledgerA : LedgerState :=
  { accounts := [("A", { address := "A", balance := 10, nonce := 0,
                         code_hash := none, storage_root := none })] }

/-- C1: `transfer("A","A",5)` with balance 10 succeeds but leaves the
balance at 15, not 10: the receiver clone (still carrying the original
balance) is written back after the sender clone and overwrites the
debit. -/
theorem self_transfer_inflates_balance :
    get_balance ledgerA "A" = 10 ∧
    (transfer ledgerA "A" "A" 5).1 = Except.ok () ∧
    get_balance (transfer ledgerA "A" "A" 5).2 "A" = 15 := by
  refine ⟨rfl, rfl, rfl⟩

/-- C2: a single successful `transfer` (a self-transfer) raises the
total supply from 10 to 15, so conservation fails on the code. -/
theorem self_transfer_inflates_supply :
    get_total_supply ledgerA = 10 ∧
    (transfer ledgerA "A" "A" 5).1 = Except.ok () ∧
    get_total_supply (transfer ledgerA "A" "A" 5).2 = 15 := by
  refine ⟨rfl, rfl, rfl⟩

/-- C3: `transfer` returns the insufficient-balance error exactly when
the sender's balance (zero for a never-seen account) is strictly below
`amount`, the error carries those two numbers, and on the error path the
returned ledger is exactly the input ledger — no account is touched. -/
theorem transfer_insufficient_iff_and_no_mutation
    (st : LedgerState) (fromAddr toAddr : String) (amount : Nat) :
    ((transfer st fromAddr toAddr amount).1 =
        Except.error (StateError.insufficientBalance (get_balance st fromAddr) amount) ↔
      get_balance st fromAddr < amount) ∧
    (∀ e, (transfer st fromAddr toAddr amount).1 = Except.error e →
      (transfer st fromAddr toAddr amount).2 = st) := by
  unfold transfer get_balance
  by_cases h : ((lookupKey st.accounts fromAddr).getD (Account.new fromAddr)).balance < amount
  · simp [h]
  · simp [h]

/-- Witness for `transfer_insufficient_iff_and_no_mutation` at a
concrete input: sender `"B"` is absent from `ledgerA`, so a transfer of
1 fails with `insufficientBalance 0 1` and leaves the ledger equal to
`ledgerA`. -/
theorem transfer_insufficient_iff_and_no_mutation_witness :
    ((transfer ledgerA "B" "A" 1).1 =
        Except.error (StateError.insufficientBalance (get_balance ledgerA "B") 1) ↔
      get_balance ledgerA "B" < 1) ∧
    (∀ e, (transfer ledgerA "B" "A" 1).1 = Except.error e →
      (transfer ledgerA "B" "A" 1).2 = ledgerA) :=
  transfer_insufficient_iff_and_no_mutation ledgerA "B" "A" 1

/-- C10: with a deployer that was never created in the account map,
`deploy_contract` fails with `deployerNotFound` and changes nothing,
while `increment_nonce` on the same missing address defaults it to a
fresh account (nonce 1 after the bump) — deployment alone refuses to
default. -/
theorem deploy_contract_missing_deployer_fails
    (calcAddr : String → Nat → String) (hashCode : List Nat → String)
    (st : LedgerState) (deployer : String) (code : List Nat) (initial_balance : Nat)
    (h : lookupKey st.accounts deployer = none) :
    (deploy_contract calcAddr hashCode st deployer code initial_balance).1 =
      Except.error StateError.deployerNotFound ∧
    (deploy_contract calcAddr hashCode st deployer code initial_balance).2 = st ∧
    lookupKey (increment_nonce st deployer).accounts deployer =
      some { Account.new deployer with nonce := 1 } := by
  refine ⟨?_, ?_, ?_⟩
  · unfold deploy_contract; rw [h]
  · unfold deploy_contract; rw [h]
  · unfold increment_nonce
    rw [h]
    have : ∀ (l : List (String × Account)) (key : String) (a : Account),
        lookupKey l key = none → lookupKey (insertKey l key a) key = some a := by
      intro l key a hnone
      induction l with
      | nil => simp [insertKey, lookupKey]
      | cons p rest ih =>
        by_cases hk : p.1 = key
        · simp [lookupKey, hk] at hnone
        · simp [insertKey, lookupKey, hk] at hnone ⊢
          exact ih hnone
    exact this st.accounts deployer _ h

/-- Witness for `deploy_contract_missing_deployer_fails`: deployer `"B"`
is absent from `ledgerA`. -/
theorem deploy_contract_missing_deployer_fails_witness :
    (deploy_contract (fun _ _ => "C") (fun _ => "h") ledgerA "B" [] 0).1 =
      Except.error StateError.deployerNotFound ∧
    (deploy_contract (fun _ _ => "C") (fun _ => "h") ledgerA "B" [] 0).2 = ledgerA ∧
    lookupKey (increment_nonce ledgerA "B").accounts "B" =
      some { Account.new "B" with nonce := 1 } :=
  deploy_contract_missing_deployer_fails (fun _ _ => "C") (fun _ => "h") ledgerA "B" [] 0 rfl

/-- Consensus configuration (`consensus/lib.rs::ConsensusConfig`). -/
structure ConsensusConfig where
  min_validators : Nat
  max_validators : Nat
  block_time_secs : Nat
  finality_threshold : Nat
  validator_rotation_blocks : Nat
  deriving DecidableEq, Repr

/-- Default consensus configuration. -/
def ConsensusConfig.default : ConsensusConfig :=
  { min_validators := 3, max_validators := 100, block_time_secs := 30,
    finality_threshold := 10, validator_rotation_blocks := 100 }

/-- Validator information (`consensus/lib.rs::Validator`). -/
structure Validator where
  address : String
  stake : Nat
  commission_rate : Nat
  is_active : Bool
  last_block_produced : Nat
  blocks_produced : Nat
  missed_blocks : Nat
  deriving DecidableEq, Repr

/-- Vote on a block proposal (`consensus/lib.rs::Vote`). -/
structure Vote where
  block_height : Nat
  block_hash : String
  validator : String
  signature : List Nat
  deriving DecidableEq, Repr

/-- Block proposal (`consensus/lib.rs::BlockProposal`). -/
structure BlockProposal where
  height : Nat
  proposer : String
  parent_hash : String
  timestamp : Nat
  transactions : List String
  state_root : String
  deriving DecidableEq, Repr

/-- Consensus state (`consensus/lib.rs::ConsensusState`). -/
structure ConsensusState where
  current_height : Nat
  current_proposer : String
  finalized_height : Nat
  validator_set : List Validator
  deriving DecidableEq, Repr

/-- The PoA consensus engine of `consensus/lib.rs`: its shared state,
pending proposals, votes per height, and the bounded finalized-height
queue. -/
structure ConsensusEngine where
  config : ConsensusConfig
  state : ConsensusState
  pending_proposals : List (Nat × BlockProposal)
  votes : List (Nat × List Vote)
  finalized_blocks : List Nat
  deriving DecidableEq, Repr

/-- Embedding of `ConsensusEngine::with_config`. -/
def ConsensusEngine.with_config (config : ConsensusConfig) : ConsensusEngine :=
  { config := config,
    state := { current_height := 0, current_proposer := "", finalized_height := 0,
               validator_set := [] },
    pending_proposals := [], votes := [], finalized_blocks := [] }

/-- Embedding of `ConsensusEngine::new`. -/
def ConsensusEngine.new : ConsensusEngine :=
  ConsensusEngine.with_config ConsensusConfig.default

/-- Upsert step of `add_validator`: overwrite the first validator with a
matching address, else push at the end. -/
def upsertValidator : List Validator → Validator → List Validator
  | [], v => [v]
  | w :: rest, v => if w.address = v.address then v :: rest else w :: upsertValidator rest v

/-- Embedding of `ConsensusEngine::add_validator`: upsert by address,
then re-sort the set by stake descending (Rust `sort_by` is a stable
merge sort, as is `List.mergeSort`). -/
def ConsensusEngine.add_validator (e : ConsensusEngine) (v : Validator) : ConsensusEngine :=
  let vs := upsertValidator e.state.validator_set v
  let vs := vs.mergeSort (fun a b => decide (b.stake ≤ a.stake))
  { e with state := { e.state with validator_set := vs } }

/-- Embedding of `ConsensusEngine::remove_validator`. -/
def ConsensusEngine.remove_validator (e : ConsensusEngine) (address : String) : ConsensusEngine :=
  { e with state := { e.state with
      validator_set := e.state.validator_set.filter (fun v => v.address ≠ address) } }

/-- Active validators of the engine (`validator_set` filtered on
`is_active`), as computed inside `select_proposer` and
`get_active_validators`. -/
def active_validators (e : ConsensusEngine) : List Validator :=
  e.state.validator_set.filter (·.is_active)

/-- Sum of the active validators' stakes (`total_stake` in
`select_proposer`). -/
def total_active_stake (e : ConsensusEngine) : Nat :=
  ((active_validators e).map (·.stake)).sum

/-- The walk inside `select_proposer`: accumulate stake down the active
list and stop at the first validator whose cumulative stake strictly
exceeds `target`. -/
def selectLoop : List Validator → Nat → Nat → Option String
  | [], _, _ => none
  | v :: rest, accumulated_stake, target =>
    if accumulated_stake + v.stake > target then some v.address
    else selectLoop rest (accumulated_stake + v.stake) target

/-- Embedding of `ConsensusEngine::select_proposer`.  `height * 31` is
`u64` arithmetic in the source, hence the explicit `% 2 ^ 64`. -/
def ConsensusEngine.select_proposer (e : ConsensusEngine) (height : Nat) :
    Except String String :=
  let active := active_validators e
  if active.isEmpty then Except.error "No active validators"
  else if active.length < e.config.min_validators then
    Except.error "Not enough active validators"
  else
    let total_stake := (active.map (·.stake)).sum
    if total_stake = 0 then Except.error "No staked validators"
    else
      let target := height * 31 % 2 ^ 64 % total_stake
      match selectLoop active 0 target with
      | some addr => Except.ok addr
      | none => Except.ok ((active.head?.map (·.address)).getD "")

/-- Embedding of `ConsensusEngine::vote`: reject voters that are not
active validators, else append the vote to the height's list (the
side-effect-free `check_finality` call is omitted: it returns `Ok` on
every path and mutates nothing). -/
def ConsensusEngine.vote (e : ConsensusEngine) (v : Vote) : Except String ConsensusEngine :=
  if e.state.validator_set.any (fun w => w.address = v.validator && w.is_active) then
    Except.ok { e with votes := pushEntry e.votes v.block_height v }
  else
    Except.error "Voter is not an active validator"

/-- The `while finalized.len() > finality_threshold { pop_front }` loop
at the end of `finalize_block`. -/
def trimFinalized (threshold : Nat) : List Nat → List Nat
  | [] => []
  | x :: rest => if rest.length + 1 > threshold then trimFinalized threshold rest else x :: rest

/-- Embedding of `ConsensusEngine::finalize_block`: requires a vote
entry for the height with at least `active_count * 2 / 3 + 1` votes; on
success sets `finalized_height` to the given height (unconditionally)
and pushes the height onto the bounded finalized queue. -/
def ConsensusEngine.finalize_block (e : ConsensusEngine) (height : Nat) :
    Except String ConsensusEngine :=
  match lookupKey e.votes height with
  | none => Except.error "No votes for height"
  | some block_votes =>
    let active_count := (e.state.validator_set.filter (·.is_active)).length
    let required_votes := active_count * 2 / 3 + 1
    if block_votes.length < required_votes then
      Except.error "Not enough votes for finality"
    else
      Except.ok { e with
        state := { e.state with finalized_height := height },
        finalized_blocks :=
          trimFinalized e.config.finality_threshold (e.finalized_blocks ++ [height]) }

/-- Number of votes recorded for a height (an absent entry counts 0). -/
def votes_count (e : ConsensusEngine) (height : Nat) : Nat :=
  ((lookupKey e.votes height).getD []).length

/-- Number of active validators. -/
def active_count (e : ConsensusEngine) : Nat :=
  (e.state.validator_set.filter (·.is_active)).length

/-- Consensus state of the secondary engine in
`src/consensus/src/lib.rs`, whose `finalize_block` guards the update
with `height > finalized_height`. -/
structure SimpleConsensusState where
  validators : List (String × Validator)
  current_proposer_index : Nat
  block_height : Nat
  finalized_height : Nat
  deriving DecidableEq, Repr

/-- Embedding of the secondary engine's `finalize_block`
(`src/consensus/src/lib.rs`): update `finalized_height` only when the
argument is strictly larger; always returns `Ok`. -/
def SimpleConsensusState.finalize_block (st : SimpleConsensusState) (height : Nat) :
    SimpleConsensusState :=
  if height > st.finalized_height then { st with finalized_height := height } else st

/-- A single active validator used in the finality counterexample run. -/
def cVal : Validator :=
  { address := "V", stake := 100000, commission_rate := 10, is_active := true,
    last_block_produced := 0, blocks_produced := 0, missed_blocks := 0 }

/-- The engine after `new()` followed by `add_validator(cVal)`, written
out literally. -/
def cEng1 : ConsensusEngine :=
  { config := ConsensusConfig.default,
    state := { current_height := 0, current_proposer := "", finalized_height := 0,
               validator_set := [cVal] },
    pending_proposals := [], votes := [], finalized_blocks := [] }

/-- Vote of `cVal` for height 5. -/
def cVote5 : Vote := { block_height := 5, block_hash := "b5", validator := "V", signature := [] }

/-- Vote of `cVal` for height 3. -/
def cVote3 : Vote := { block_height := 3, block_hash := "b3", validator := "V", signature := [] }

/-- Engine after the height-5 vote. -/
def cEng2 : ConsensusEngine := (cEng1.vote cVote5).toOption.getD cEng1

/-- Engine after the height-3 vote. -/
def cEng3 : ConsensusEngine := (cEng2.vote cVote3).toOption.getD cEng2

/-- Engine after successfully finalizing height 5. -/
def cEng4 : ConsensusEngine := (cEng3.finalize_block 5).toOption.getD cEng3

/-- Engine after then successfully finalizing height 3. -/
def cEng5 : ConsensusEngine := (cEng4.finalize_block 3).toOption.getD cEng4

/-- C4 counterexample: starting from `new()`, add one active validator,
vote for heights 5 and 3 (one vote meets the quorum `1*2/3+1 = 1`),
finalize height 5, then finalize height 3: both finalize calls succeed
and `finalized_height` drops from 5 back to 3. -/
theorem finalize_block_can_lower_finalized_height :
    ConsensusEngine.new.add_validator cVal = cEng1 ∧
    cEng1.vote cVote5 = Except.ok cEng2 ∧
    cEng2.vote cVote3 = Except.ok cEng3 ∧
    cEng3.finalize_block 5 = Except.ok cEng4 ∧
    cEng4.state.finalized_height = 5 ∧
    cEng4.finalize_block 3 = Except.ok cEng5 ∧
    cEng5.state.finalized_height = 3 ∧
    cEng5.state.finalized_height < cEng4.state.finalized_height := by
  refine ⟨?_, rfl, rfl, rfl, rfl, rfl, rfl, by decide⟩
  simp [ConsensusEngine.new, ConsensusEngine.with_config, ConsensusEngine.add_validator,
    upsertValidator, cEng1]

/-- C4 amended: the secondary engine (`src/consensus/src/lib.rs`) never
decreases `finalized_height` (it updates only when the argument is
strictly larger), while the PoA engine's successful
`finalize_block(height)` sets `finalized_height` to exactly `height` —
so for it monotonicity holds precisely across calls whose heights are
non-decreasing. -/
theorem finalized_height_monotone_amended :
    (∀ (st : SimpleConsensusState) (height : Nat),
      st.finalized_height ≤ (st.finalize_block height).finalized_height) ∧
    (∀ (e e' : ConsensusEngine) (height : Nat),
      e.finalize_block height = Except.ok e' → e'.state.finalized_height = height) ∧
    (∀ (e e' : ConsensusEngine) (height : Nat),
      e.finalize_block height = Except.ok e' → e.state.finalized_height ≤ height →
      e.state.finalized_height ≤ e'.state.finalized_height) := by
  have hset : ∀ (e e' : ConsensusEngine) (height : Nat),
      e.finalize_block height = Except.ok e' → e'.state.finalized_height = height := by
    intro e e' height h
    unfold ConsensusEngine.finalize_block at h
    cases hl : lookupKey e.votes height with
    | none => rw [hl] at h; cases h
    | some bv =>
      rw [hl] at h
      dsimp only at h
      by_cases hlt : bv.length <
          (e.state.validator_set.filter (fun v => v.is_active)).length * 2 / 3 + 1
      · rw [if_pos hlt] at h; cases h
      · rw [if_neg hlt] at h; cases h; rfl
  refine ⟨?_, hset, ?_⟩
  · intro st height
    unfold SimpleConsensusState.finalize_block
    split
    · next hgt => exact Nat.le_of_lt hgt
    · exact Nat.le_refl _
  · intro e e' height h hle
    rw [hset e e' height h]; exact hle

/-- Witness for `finalized_height_monotone_amended`: the secondary
engine keeps `finalized_height = 4` when asked to finalize height 2,
and the PoA run `cEng3 → cEng4` (finalize height 5 from height 0) lands
exactly on 5, not below 0. -/
theorem finalized_height_monotone_amended_witness :
    (SimpleConsensusState.mk [] 0 0 4).finalized_height ≤
      ((SimpleConsensusState.mk [] 0 0 4).finalize_block 2).finalized_height ∧
    cEng4.state.finalized_height = 5 ∧
    cEng3.state.finalized_height ≤ cEng4.state.finalized_height :=
  ⟨finalized_height_monotone_amended.1 (SimpleConsensusState.mk [] 0 0 4) 2,
   finalized_height_monotone_amended.2.1 cEng3 cEng4 5 rfl,
   finalized_height_monotone_amended.2.2 cEng3 cEng4 5 rfl (by decide)⟩

/-- C5: `finalize_block(height)` succeeds exactly when the number of
votes recorded for the height reaches `2 * active_count / 3 + 1` in
integer arithmetic (an absent vote entry counts 0 and always misses the
threshold, which is at least 1), and on success `finalized_height`
becomes exactly `height`. -/
theorem finalize_block_threshold (e : ConsensusEngine) (height : Nat) :
    ((e.finalize_block height).isOk = true ↔
      votes_count e height ≥ 2 * active_count e / 3 + 1) ∧
    (∀ e', e.finalize_block height = Except.ok e' → e'.state.finalized_height = height) := by
  constructor
  · unfold ConsensusEngine.finalize_block votes_count active_count
    cases hl : lookupKey e.votes height with
    | none =>
      simp only [hl, Option.getD_none, List.length_nil, Except.isOk]
      constructor
      · intro h; cases h
      · intro h; omega
    | some bv =>
      simp only [hl, Option.getD_some]
      split
      · next hlt =>
        simp only [Except.isOk]
        constructor
        · intro h; cases h
        · intro h; omega
      · next hge =>
        simp only [Except.isOk]
        constructor
        · intro _; omega
        · intro _; rfl
  · intro e' h
    unfold ConsensusEngine.finalize_block at h
    cases hl : lookupKey e.votes height with
    | none => rw [hl] at h; cases h
    | some bv =>
      rw [hl] at h
      dsimp only at h
      by_cases hlt : bv.length <
          (e.state.validator_set.filter (fun v => v.is_active)).length * 2 / 3 + 1
      · rw [if_pos hlt] at h; cases h
      · rw [if_neg hlt] at h; cases h; rfl

/-- Three equal-stake active validators for the quorum witness. -/
def cQuorumVal (i : Nat) : Validator :=
  { address := "W" ++ toString i, stake := 100000, commission_rate := 10, is_active := true,
    last_block_produced := 0, blocks_produced := 0, missed_blocks := 0 }

/-- An engine holding 3 active validators and their 3 votes for height 1. -/
def cQuorumEng : ConsensusEngine :=
  { config := ConsensusConfig.default,
    state := { current_height := 0, current_proposer := "", finalized_height := 0,
               validator_set := [cQuorumVal 1, cQuorumVal 2, cQuorumVal 3] },
    pending_proposals := [],
    votes := [(1, [{ block_height := 1, block_hash := "b1", validator := "W1", signature := [] },
                   { block_height := 1, block_hash := "b1", validator := "W2", signature := [] },
                   { block_height := 1, block_hash := "b1", validator := "W3", signature := [] }])],
    finalized_blocks := [] }

/-- Result of finalizing height 1 on `cQuorumEng`. -/
def cQuorumAfter : ConsensusEngine := (cQuorumEng.finalize_block 1).toOption.getD cQuorumEng

/-- Witness for `finalize_block_threshold`: with 3 active validators the
threshold is `2*3/3+1 = 3`; with exactly 3 recorded votes the call
succeeds and sets `finalized_height` to 1. -/
theorem finalize_block_threshold_witness :
    votes_count cQuorumEng 1 = 3 ∧
    2 * active_count cQuorumEng / 3 + 1 = 3 ∧
    ((cQuorumEng.finalize_block 1).isOk = true ↔
      votes_count cQuorumEng 1 ≥ 2 * active_count cQuorumEng / 3 + 1) ∧
    cQuorumAfter.state.finalized_height = 1 :=
  ⟨rfl, rfl, (finalize_block_threshold cQuorumEng 1).1,
   (finalize_block_threshold cQuorumEng 1).2 cQuorumAfter rfl⟩

/-- Cumulative stake of the first `n` validators of a list. -/
def cumulative_stake (vs : List Validator) (n : Nat) : Nat :=
  ((vs.take n).map (·.stake)).sum

theorem cumulative_stake_succ_cons (v : Validator) (rest : List Validator) (n : Nat) :
    cumulative_stake (v :: rest) (n + 1) = v.stake + cumulative_stake rest n := by
  simp [cumulative_stake]

/-- The accumulate-and-compare walk stops at the first validator whose
cumulative stake strictly exceeds the target, provided the total gets
there at all and the running total has not yet passed the target. -/
theorem selectLoop_first :
    ∀ (vs : List Validator) (acc target : Nat),
      acc ≤ target → target < acc + ((vs.map (·.stake)).sum) →
      ∃ i : Fin vs.length,
        selectLoop vs acc target = some (vs.get i).address ∧
        target < acc + cumulative_stake vs (i.1 + 1) ∧
        ∀ j, j < i.1 → acc + cumulative_stake vs (j + 1) ≤ target := by
  intro vs
  induction vs with
  | nil =>
    intro acc target hle hlt
    simp only [List.map_nil, List.sum_nil, Nat.add_zero] at hlt
    omega
  | cons v rest ih =>
    intro acc target hle hlt
    by_cases hv : acc + v.stake > target
    · refine ⟨⟨0, by simp⟩, ?_, ?_, ?_⟩
      · simp [selectLoop, hv]
      · simpa [cumulative_stake_succ_cons, cumulative_stake] using hv
      · intro j hj
        exact (Nat.not_lt_zero j hj).elim
    · have hle' : acc + v.stake ≤ target := Nat.not_lt.mp hv
      have hlt' : target < acc + v.stake + ((rest.map (·.stake)).sum) := by
        simp only [List.map_cons, List.sum_cons] at hlt
        omega
      obtain ⟨i', h1, h2, h3⟩ := ih (acc + v.stake) target hle' hlt'
      refine ⟨⟨i'.1 + 1, Nat.succ_lt_succ i'.2⟩, ?_, ?_, ?_⟩
      · simpa [selectLoop, hv] using h1
      · dsimp only
        rw [cumulative_stake_succ_cons]
        omega
      · intro j hj
        dsimp only at hj
        cases j with
        | zero =>
          rw [cumulative_stake_succ_cons]
          simpa [cumulative_stake] using hle'
        | succ j' =>
          rw [cumulative_stake_succ_cons]
          have := h3 j' (by omega)
          omega

/-- C6: with a non-empty active list of at least `min_validators`
validators and positive total active stake (and `height * 31` inside
`u64` range, so the claim's exact arithmetic coincides with the code's),
`select_proposer(height)` returns the address of the first validator of
the active list — the stake-descending list the engine maintains —
whose cumulative stake strictly exceeds `height * 31 mod
total_active_stake`; the result depends only on the validator set and
the configured minimum (determinism), and the call fails whenever the
active list is empty or shorter than the minimum. -/
theorem select_proposer_first_exceeding :
    (∀ (e : ConsensusEngine) (height : Nat),
      active_validators e ≠ [] →
      e.config.min_validators ≤ (active_validators e).length →
      0 < total_active_stake e →
      height * 31 < 2 ^ 64 →
      ∃ i : Fin (active_validators e).length,
        e.select_proposer height = Except.ok ((active_validators e).get i).address ∧
        height * 31 % total_active_stake e <
          cumulative_stake (active_validators e) (i.1 + 1) ∧
        ∀ j, j < i.1 →
          cumulative_stake (active_validators e) (j + 1) ≤
            height * 31 % total_active_stake e) ∧
    (∀ (e : ConsensusEngine) (height : Nat),
      (active_validators e = [] ∨ (active_validators e).length < e.config.min_validators) →
      ∃ msg, e.select_proposer height = Except.error msg) ∧
    (∀ (e e' : ConsensusEngine) (height : Nat),
      e.state.validator_set = e'.state.validator_set →
      e.config.min_validators = e'.config.min_validators →
      e.select_proposer height = e'.select_proposer height) := by
  refine ⟨?_, ?_, ?_⟩
  · intro e height hne hmin hstake hbound
    have hmod : height * 31 % 2 ^ 64 = height * 31 := Nat.mod_eq_of_lt hbound
    have htarget : height * 31 % total_active_stake e < total_active_stake e :=
      Nat.mod_lt _ hstake
    obtain ⟨i, h1, h2, h3⟩ :=
      selectLoop_first (active_validators e) 0 (height * 31 % total_active_stake e)
        (Nat.zero_le _) (by simpa [total_active_stake] using htarget)
    refine ⟨i, ?_, by simpa using h2, fun j hj => by simpa using h3 j hj⟩
    unfold ConsensusEngine.select_proposer
    rw [if_neg (by simpa [List.isEmpty_iff] using hne),
        if_neg (Nat.not_lt.mpr hmin),
        if_neg (Nat.pos_iff_ne_zero.mp (by simpa [total_active_stake] using hstake))]
    rw [hmod]
    have hsum : ((active_validators e).map (·.stake)).sum = total_active_stake e := rfl
    rw [hsum]
    dsimp only
    rw [h1]
  · intro e height hfail
    unfold ConsensusEngine.select_proposer
    rcases hfail with hnil | hshort
    · refine ⟨"No active validators", ?_⟩
      rw [if_pos (by simp [List.isEmpty_iff, hnil])]
    · by_cases hnil : (active_validators e).isEmpty
      · exact ⟨"No active validators", by rw [if_pos hnil]⟩
      · exact ⟨"Not enough active validators", by rw [if_neg (by simpa using hnil), if_pos hshort]⟩
  · intro e e' height hset hmin
    unfold ConsensusEngine.select_proposer active_validators
    rw [hset, hmin]

/-- A three-validator engine (stakes 100, 50, 30, already stake-sorted)
for the proposer-selection witness. -/
def cPropEng : ConsensusEngine :=
  { config := ConsensusConfig.default,
    state := { current_height := 0, current_proposer := "", finalized_height := 0,
               validator_set :=
                 [{ address := "P1", stake := 100, commission_rate := 0, is_active := true,
                    last_block_produced := 0, blocks_produced := 0, missed_blocks := 0 },
                  { address := "P2", stake := 50, commission_rate := 0, is_active := true,
                    last_block_produced := 0, blocks_produced := 0, missed_blocks := 0 },
                  { address := "P3", stake := 30, commission_rate := 0, is_active := true,
                    last_block_produced := 0, blocks_produced := 0, missed_blocks := 0 }] },
    pending_proposals := [], votes := [], finalized_blocks := [] }

/-- The same engine with only one active validator (below the default
minimum of 3). -/
def cPropEngShort : ConsensusEngine :=
  { cPropEng with state := { cPropEng.state with validator_set :=
      [{ address := "P1", stake := 100, commission_rate := 0, is_active := true,
         last_block_produced := 0, blocks_produced := 0, missed_blocks := 0 }] } }

/-- Witness for `select_proposer_first_exceeding`: on `cPropEng` at
height 1 the target is `31 % 180 = 31`, the first validator's 100 stake
already exceeds it, so `select_proposer` picks `"P1"`; on the
one-validator engine the call errors; and an engine differing only in
`current_height` selects the same proposer. -/
theorem select_proposer_first_exceeding_witness :
    (∃ i : Fin (active_validators cPropEng).length,
      cPropEng.select_proposer 1 = Except.ok ((active_validators cPropEng).get i).address ∧
      1 * 31 % total_active_stake cPropEng <
        cumulative_stake (active_validators cPropEng) (i.1 + 1) ∧
      ∀ j, j < i.1 →
        cumulative_stake (active_validators cPropEng) (j + 1) ≤
          1 * 31 % total_active_stake cPropEng) ∧
    cPropEng.select_proposer 1 = Except.ok "P1" ∧
    (∃ msg, cPropEngShort.select_proposer 1 = Except.error msg) ∧
    ({ cPropEng with state := { cPropEng.state with current_height := 7 } }.select_proposer 1 =
      cPropEng.select_proposer 1) :=
  ⟨select_proposer_first_exceeding.1 cPropEng 1 (by decide) (by decide) (by decide) (by decide),
   rfl,
   select_proposer_first_exceeding.2.1 cPropEngShort 1 (by decide),
   select_proposer_first_exceeding.2.2 _ cPropEng 1 rfl rfl⟩

/-- Transaction payload kinds (`types::TransactionType`). -/
inductive TransactionType where
  | Transfer (toAddr : String) (amount : Nat)
  | ContractDeploy (code : List Nat) (init_data : List Nat)
  | ContractCall (contract : String) (method : String) (args : List Nat)
  deriving DecidableEq, Repr

/-- ACT Chain transaction (`types::Transaction`); `from` is a Lean
keyword, hence `from_addr`. -/
structure Transaction where
  from_addr : String
  nonce : Nat
  tx_type : TransactionType
  gas_limit : Nat
  gas_price : Nat
  signature : List Nat
  pubkey : List Nat
  deriving DecidableEq, Repr

/-- Read-only view of the `StateManager` as the mempool consumes it:
`get_nonce` and `get_balance` at the moment of the call (the `Result`
wrapper never fails outside storage faults, which are out of model). -/
structure StateView where
  nonceOf : String → Nat
  balanceOf : String → Nat

/-- Transaction mempool (`mempool/src/lib.rs::Mempool`): per-sender FIFO
queues plus the by-hash index, bounded by `max_size`. -/
structure Mempool where
  pending : List (String × List Transaction)
  by_hash : List (String × Transaction)
  max_size : Nat
  deriving DecidableEq, Repr

/-- Embedding of `Mempool::new`. -/
def Mempool.new (max_size : Nat) : Mempool :=
  { pending := [], by_hash := [], max_size := max_size }

/-- Distinguishable admission rejection reasons (§7 of the spec; the
source uses `anyhow` strings with exactly these cases). -/
inductive RejectReason where
  | invalidSignature
  | nonceTooLow
  | nonceTooHigh
  | insufficientBalance (has needs : Nat)
  | gasLimitTooLow
  | gasLimitTooHigh
  | duplicate
  | poolFull
  deriving DecidableEq, Repr

/-- Embedding of `Mempool::calculate_total_cost`: gas plus the amount
for transfers. -/
def calculate_total_cost (tx : Transaction) : Nat :=
  let gas_cost := tx.gas_limit * tx.gas_price
  match tx.tx_type with
  | TransactionType.Transfer _ amount => amount + gas_cost
  | _ => gas_cost

/-- Embedding of `Mempool::validate_transaction`.  Signature checking
(`crypto::verify_signature` over the canonical serialization) enters as
the opaque boolean capability `sigOk`, as the spec's non-goals
prescribe. -/
def validate_transaction (sigOk : Transaction → Bool) (sv : StateView) (tx : Transaction) :
    Except RejectReason Unit :=
  if !(sigOk tx) then Except.error RejectReason.invalidSignature
  else
    let current_nonce := sv.nonceOf tx.from_addr
    if tx.nonce < current_nonce then Except.error RejectReason.nonceTooLow
    else if tx.nonce > current_nonce + 100 then Except.error RejectReason.nonceTooHigh
    else
      let balance := sv.balanceOf tx.from_addr
      let total_cost := calculate_total_cost tx
      if balance < total_cost then
        Except.error (RejectReason.insufficientBalance balance total_cost)
      else if tx.gas_limit < 21000 then Except.error RejectReason.gasLimitTooLow
      else if tx.gas_limit > 10000000 then Except.error RejectReason.gasLimitTooHigh
      else Except.ok ()

/-- Embedding of `Mempool::add_transaction`: validate first, then
reject duplicates by hash, then reject on capacity, then insert into
both indices.  The transaction hash (hex SHA-256 of the serialization)
enters as the opaque function `H`. -/
def add_transaction (H : Transaction → String) (sigOk : Transaction → Bool)
    (sv : StateView) (mp : Mempool) (tx : Transaction) :
    Except RejectReason (String × Mempool) :=
  match validate_transaction sigOk sv tx with
  | Except.error e => Except.error e
  | Except.ok _ =>
    let tx_hash := H tx
    if (lookupKey mp.by_hash tx_hash).isSome then Except.error RejectReason.duplicate
    else if mp.by_hash.length ≥ mp.max_size then Except.error RejectReason.poolFull
    else
      Except.ok (tx_hash,
        { mp with pending := pushEntry mp.pending tx.from_addr tx,
                  by_hash := insertKey mp.by_hash tx_hash tx })

/-- Embedding of `Mempool::remove_transaction`: drop the hash from the
by-hash index, drop every entry with that hash from the sender's queue,
and drop the queue itself when emptied. -/
def remove_transaction (H : Transaction → String) (mp : Mempool) (tx_hash : String) :
    Option Transaction × Mempool :=
  match lookupKey mp.by_hash tx_hash with
  | none => (none, mp)
  | some tx =>
    let by_hash := eraseKey mp.by_hash tx_hash
    let pending :=
      match lookupKey mp.pending tx.from_addr with
      | none => mp.pending
      | some q =>
        let q := q.filter (fun t => H t != tx_hash)
        if q.isEmpty then eraseKey mp.pending tx.from_addr
        else insertKey mp.pending tx.from_addr q
    (some tx, { mp with pending := pending, by_hash := by_hash })

/-- Embedding of `Mempool::clear`. -/
def Mempool.clear (mp : Mempool) : Mempool :=
  { mp with pending := [], by_hash := [] }

/-- Comparator of `get_transactions_for_block`: gas price descending,
nonce ascending as tie-break (`a` may come before `b` iff this holds). -/
def txLE (a b : Transaction) : Bool :=
  b.gas_price < a.gas_price || (a.gas_price = b.gas_price && a.nonce ≤ b.nonce)

/-- The greedy selection loop of `get_transactions_for_block`: stop once
`max_count` transactions are selected, keep those whose nonce equals the
sender's current nonce, skip the rest. -/
def pickExecutable (sv : StateView) : List Transaction → Nat → List Transaction
  | [], _ => []
  | _ :: _, 0 => []
  | tx :: rest, Nat.succ fuel =>
    if tx.nonce = sv.nonceOf tx.from_addr then tx :: pickExecutable sv rest fuel
    else pickExecutable sv rest (Nat.succ fuel)

/-- Embedding of `Mempool::get_transactions_for_block`: flatten all
pending queues, stable-sort by `txLE` (Rust `sort_by` is a stable merge
sort, as is `List.mergeSort`), then greedily pick executable
transactions. -/
def Mempool.get_transactions_for_block (mp : Mempool) (max_count : Nat) (sv : StateView) :
    List Transaction :=
  let all_txs := (mp.pending.map (·.2)).flatten
  let all_txs := all_txs.mergeSort txLE
  pickExecutable sv all_txs max_count

theorem txLE_trans (a b c : Transaction) :
    txLE a b = true → txLE b c = true → txLE a c = true := by
  simp only [txLE, Bool.or_eq_true, Bool.and_eq_true, decide_eq_true_eq]
  omega

theorem txLE_total (a b : Transaction) : (txLE a b || txLE b a) = true := by
  simp only [txLE, Bool.or_eq_true, Bool.and_eq_true, decide_eq_true_eq]
  omega

theorem pickExecutable_eq_take_filter (sv : StateView) (txs : List Transaction) :
    ∀ max_count : Nat,
      pickExecutable sv txs max_count =
        (txs.filter (fun tx => decide (tx.nonce = sv.nonceOf tx.from_addr))).take max_count := by
  induction txs with
  | nil => intro n; cases n <;> rfl
  | cons tx rest ih =>
    intro n
    cases n with
    | zero =>
      by_cases hp : tx.nonce = sv.nonceOf tx.from_addr <;> simp [pickExecutable, hp]
    | succ m =>
      by_cases hp : tx.nonce = sv.nonceOf tx.from_addr <;>
        simp [pickExecutable, hp, ih]

/-- C7: every transaction returned by `get_transactions_for_block` has
nonce exactly equal to (hence never greater than) its sender's current
nonce at call time; the result has at most `max_count` elements; and it
is the `max_count`-prefix of the nonce-exact transactions of the pool
sorted by gas price descending with nonce ascending as tie-break (in
particular an in-order sublist of that sorted pool, which is a
permutation of the pool sorted by the comparator). -/
theorem get_transactions_for_block_spec (mp : Mempool) (max_count : Nat) (sv : StateView) :
    (∀ tx ∈ mp.get_transactions_for_block max_count sv,
      tx.nonce = sv.nonceOf tx.from_addr) ∧
    (mp.get_transactions_for_block max_count sv).length ≤ max_count ∧
    ((mp.pending.map (·.2)).flatten.mergeSort txLE).Perm (mp.pending.map (·.2)).flatten ∧
    ((mp.pending.map (·.2)).flatten.mergeSort txLE).Pairwise (fun a b => txLE a b = true) ∧
    mp.get_transactions_for_block max_count sv =
      (((mp.pending.map (·.2)).flatten.mergeSort txLE).filter
        (fun tx => decide (tx.nonce = sv.nonceOf tx.from_addr))).take max_count ∧
    List.Sublist (mp.get_transactions_for_block max_count sv)
      ((mp.pending.map (·.2)).flatten.mergeSort txLE) := by
  have heq : mp.get_transactions_for_block max_count sv =
      (((mp.pending.map (·.2)).flatten.mergeSort txLE).filter
        (fun tx => decide (tx.nonce = sv.nonceOf tx.from_addr))).take max_count := by
    unfold Mempool.get_transactions_for_block
    exact pickExecutable_eq_take_filter sv _ max_count
  refine ⟨?_, ?_, List.mergeSort_perm _ txLE,
    List.sorted_mergeSort txLE_trans txLE_total _, heq, ?_⟩
  · intro tx htx
    rw [heq] at htx
    have h1 := List.mem_of_mem_take htx
    rw [List.mem_filter] at h1
    exact of_decide_eq_true h1.2
  · rw [heq]
    calc ((((mp.pending.map (·.2)).flatten.mergeSort txLE).filter
            (fun tx => decide (tx.nonce = sv.nonceOf tx.from_addr))).take max_count).length
        ≤ (((mp.pending.map (·.2)).flatten.mergeSort txLE).filter
            (fun tx => decide (tx.nonce = sv.nonceOf tx.from_addr))).length.min max_count := by
          rw [List.length_take, Nat.min_comm]
      _ ≤ max_count := Nat.min_le_right _ _
  · rw [heq]
    exact (List.take_sublist _ _).trans (List.filter_sublist _)

/-- Hash capability for the concrete mempool runs (only one transaction
is ever involved, so a constant hash is adequate). -/
def cH : Transaction → String := fun _ => "h"

/-- Signature capability that accepts everything (the concrete runs use
"well-signed" transactions). -/
def cSig : Transaction → Bool := fun _ => true

/-- The transaction used in the duplicate-rejection runs: transfer of 1
at nonce 0, gas price 0. -/
def cTx : Transaction :=
  { from_addr := "S", nonce := 0, tx_type := TransactionType.Transfer "R" 1,
    gas_limit := 21000, gas_price := 0, signature := [], pubkey := [] }

/-- Ledger view at submission time: sender nonce 0, balance 1. -/
def cSv0 : StateView := { nonceOf := fun _ => 0, balanceOf := fun _ => 1 }

/-- Ledger view after the sender's nonce advanced to 1. -/
def cSv1 : StateView := { nonceOf := fun _ => 1, balanceOf := fun _ => 1 }

/-- The pool after `cTx` was successfully admitted. -/
def cMpAfter : Mempool :=
  ((add_transaction cH cSig cSv0 (Mempool.new 10) cTx).toOption.getD ("", Mempool.new 10)).2

/-- C8 counterexample: `cTx` is admitted, its hash stays in the pool,
the sender's on-chain nonce advances to 1, and resubmitting the very
same transaction now returns the nonce-too-low rejection — not the
duplicate rejection — because validation runs before the duplicate
check. -/
theorem resubmit_after_nonce_advance_not_duplicate :
    add_transaction cH cSig cSv0 (Mempool.new 10) cTx = Except.ok ("h", cMpAfter) ∧
    (lookupKey cMpAfter.by_hash (cH cTx)).isSome = true ∧
    add_transaction cH cSig cSv1 cMpAfter cTx = Except.error RejectReason.nonceTooLow ∧
    RejectReason.nonceTooLow ≠ RejectReason.duplicate :=
  ⟨rfl, rfl, rfl, by decide⟩

/-- C8 amended: while a transaction's hash is in the pool, resubmitting
a transaction with that hash yields the duplicate rejection provided it
still passes validation against the current ledger view; when
validation fails, the validation error is returned instead (validation
short-circuits ahead of the duplicate check). -/
theorem add_transaction_duplicate_amended :
    (∀ (H : Transaction → String) (sigOk : Transaction → Bool) (sv : StateView)
        (mp : Mempool) (tx : Transaction),
      (lookupKey mp.by_hash (H tx)).isSome = true →
      validate_transaction sigOk sv tx = Except.ok () →
      add_transaction H sigOk sv mp tx = Except.error RejectReason.duplicate) ∧
    (∀ (H : Transaction → String) (sigOk : Transaction → Bool) (sv : StateView)
        (mp : Mempool) (tx : Transaction) (e : RejectReason),
      validate_transaction sigOk sv tx = Except.error e →
      add_transaction H sigOk sv mp tx = Except.error e) := by
  constructor
  · intro H sigOk sv mp tx hin hval
    unfold add_transaction
    rw [hval]
    dsimp only
    rw [if_pos hin]
  · intro H sigOk sv mp tx e hval
    unfold add_transaction
    rw [hval]

/-- Witness for `add_transaction_duplicate_amended`: with the admitted
pool `cMpAfter`, resubmitting `cTx` under the original ledger view is
rejected as a duplicate, and under the advanced-nonce view it is
rejected as nonce-too-low. -/
theorem add_transaction_duplicate_amended_witness :
    add_transaction cH cSig cSv0 cMpAfter cTx = Except.error RejectReason.duplicate ∧
    add_transaction cH cSig cSv1 cMpAfter cTx = Except.error RejectReason.nonceTooLow :=
  ⟨add_transaction_duplicate_amended.1 cH cSig cSv0 cMpAfter cTx rfl rfl,
   add_transaction_duplicate_amended.2 cH cSig cSv1 cMpAfter cTx RejectReason.nonceTooLow rfl⟩

theorem lookupKey_eq_none_iff {κ α : Type} [DecidableEq κ] (l : List (κ × α)) (k : κ) :
    lookupKey l k = none ↔ k ∉ l.map (fun p => p.1) := by
  induction l with
  | nil => simp [lookupKey]
  | cons p rest ih =>
    obtain ⟨k', v'⟩ := p
    by_cases hk : k' = k
    · subst hk
      simp [lookupKey]
    · have hne : ¬ k = k' := fun hh => hk hh.symm
      simp [lookupKey, hk, ih, hne]

theorem insertKey_of_lookup_none {κ α : Type} [DecidableEq κ] {l : List (κ × α)} {k : κ}
    (v : α) (h : lookupKey l k = none) : insertKey l k v = l ++ [(k, v)] := by
  induction l with
  | nil => rfl
  | cons p rest ih =>
    obtain ⟨k', v'⟩ := p
    by_cases hk : k' = k
    · simp [lookupKey, hk] at h
    · simp only [lookupKey, if_neg hk] at h
      simp only [insertKey, if_neg hk, List.cons_append, List.cons.injEq, true_and]
      exact ih h

theorem lookupKey_some_decomp {κ α : Type} [DecidableEq κ] {l : List (κ × α)} {k : κ} {v : α}
    (h : lookupKey l k = some v) :
    ∃ l1 l2, l = l1 ++ (k, v) :: l2 ∧ k ∉ l1.map (fun p => p.1) := by
  induction l with
  | nil => simp [lookupKey] at h
  | cons p rest ih =>
    obtain ⟨k', v'⟩ := p
    by_cases hk : k' = k
    · subst hk
      simp [lookupKey] at h
      subst h
      exact ⟨[], rest, rfl, by simp⟩
    · simp only [lookupKey, if_neg hk] at h
      obtain ⟨l1, l2, hl, hnot⟩ := ih h
      refine ⟨(k', v') :: l1, l2, by simp [hl], ?_⟩
      simp only [List.map_cons, List.mem_cons, not_or]
      exact ⟨fun hh => hk hh.symm, hnot⟩

theorem lookupKey_of_mem_nodup {κ α : Type} [DecidableEq κ] {l : List (κ × α)} {k : κ} {v : α}
    (hnd : (l.map (fun p => p.1)).Nodup) (hm : (k, v) ∈ l) : lookupKey l k = some v := by
  induction l with
  | nil => cases hm
  | cons p rest ih =>
    simp only [List.map_cons, List.nodup_cons] at hnd
    rcases List.mem_cons.mp hm with heq | hmem
    · subst heq; simp [lookupKey]
    · have hk : p.1 ≠ k := by
        intro hk
        exact hnd.1 (hk ▸ (List.mem_map.mpr ⟨(k, v), hmem, rfl⟩))
      simp only [lookupKey, if_neg hk]
      exact ih hnd.2 hmem

theorem eraseKey_append_of_not_mem {κ α : Type} [DecidableEq κ] {l1 : List (κ × α)} {k : κ}
    (l2 : List (κ × α)) (h : k ∉ l1.map (fun p => p.1)) :
    eraseKey (l1 ++ l2) k = l1 ++ eraseKey l2 k := by
  induction l1 with
  | nil => rfl
  | cons p rest ih =>
    obtain ⟨k', v'⟩ := p
    have h1 : ¬ (k' = k) := fun hh => h (by simp [hh])
    have h2 : k ∉ rest.map (fun p => p.1) := fun hh => h (by simp [hh])
    simp only [List.cons_append, eraseKey, if_neg h1, List.cons.injEq, true_and]
    exact ih h2

theorem eraseKey_cons_self {κ α : Type} [DecidableEq κ] (l : List (κ × α)) (k : κ) (v : α) :
    eraseKey ((k, v) :: l) k = l := by
  simp [eraseKey]

theorem insertKey_append_of_not_mem {κ α : Type} [DecidableEq κ] {l1 : List (κ × α)} {k : κ}
    (l2 : List (κ × α)) (v : α) (h : k ∉ l1.map (fun p => p.1)) :
    insertKey (l1 ++ l2) k v = l1 ++ insertKey l2 k v := by
  induction l1 with
  | nil => rfl
  | cons p rest ih =>
    obtain ⟨k', v'⟩ := p
    have h1 : ¬ (k' = k) := fun hh => h (by simp [hh])
    have h2 : k ∉ rest.map (fun p => p.1) := fun hh => h (by simp [hh])
    simp only [List.cons_append, insertKey, if_neg h1, List.cons.injEq, true_and]
    exact ih h2

theorem insertKey_cons_self {κ α : Type} [DecidableEq κ] (l : List (κ × α)) (k : κ) (v v' : α) :
    insertKey ((k, v') :: l) k v = (k, v) :: l := by
  simp [insertKey]

theorem pushEntry_of_lookup_none {κ α : Type} [DecidableEq κ] {l : List (κ × List α)} {k : κ}
    (x : α) (h : lookupKey l k = none) : pushEntry l k x = l ++ [(k, [x])] := by
  induction l with
  | nil => rfl
  | cons p rest ih =>
    obtain ⟨k', q⟩ := p
    by_cases hk : k' = k
    · simp [lookupKey, hk] at h
    · simp only [lookupKey, if_neg hk] at h
      simp only [pushEntry, if_neg hk, List.cons_append, List.cons.injEq, true_and]
      exact ih h

theorem pushEntry_append_of_not_mem {κ α : Type} [DecidableEq κ] {l1 : List (κ × List α)} {k : κ}
    (l2 : List (κ × List α)) (x : α) (h : k ∉ l1.map (fun p => p.1)) :
    pushEntry (l1 ++ l2) k x = l1 ++ pushEntry l2 k x := by
  induction l1 with
  | nil => rfl
  | cons p rest ih =>
    obtain ⟨k', q⟩ := p
    have h1 : ¬ (k' = k) := fun hh => h (by simp [hh])
    have h2 : k ∉ rest.map (fun p => p.1) := fun hh => h (by simp [hh])
    simp only [List.cons_append, pushEntry, if_neg h1, List.cons.injEq, true_and]
    exact ih h2

theorem pushEntry_cons_self {κ α : Type} [DecidableEq κ] (l : List (κ × List α)) (k : κ)
    (q : List α) (x : α) : pushEntry ((k, q) :: l) k x = (k, q ++ [x]) :: l := by
  simp [pushEntry]

/-- All transactions sitting in the per-sender queues, in queue order. -/
def queuedTxs (mp : Mempool) : List Transaction :=
  (mp.pending.map (fun p => p.2)).flatten

/-- The mutating mempool operations of the claim.  An `addTx` carries
the ledger view at its call time (the ledger may change between
calls); the hash capability is fixed for a run. -/
inductive MempoolOp where
  | addTx (sigOk : Transaction → Bool) (sv : StateView) (tx : Transaction)
  | removeTx (tx_hash : String)
  | clearAll

/-- One mempool operation as the callers observe it: a rejected
`add_transaction` leaves the pool as it was. -/
def applyOp (H : Transaction → String) (mp : Mempool) : MempoolOp → Mempool
  | MempoolOp.addTx sigOk sv tx =>
    match add_transaction H sigOk sv mp tx with
    | Except.ok (_, mp') => mp'
    | Except.error _ => mp
  | MempoolOp.removeTx tx_hash => (remove_transaction H mp tx_hash).2
  | MempoolOp.clearAll => mp.clear

/-- A sequence of mempool operations applied in order. -/
def applyOps (H : Transaction → String) (mp : Mempool) (ops : List MempoolOp) : Mempool :=
  ops.foldl (applyOp H) mp

/-- The coupling invariant between the two mempool indices. -/
structure MempoolInv (H : Transaction → String) (mp : Mempool) : Prop where
  keys_nodup : (mp.by_hash.map (fun p => p.1)).Nodup
  hash_keyed : ∀ p ∈ mp.by_hash, H p.2 = p.1
  queued_perm : (queuedTxs mp).Perm (mp.by_hash.map (fun p => p.2))
  sender_keyed : ∀ p ∈ mp.pending, ∀ t ∈ p.2, t.from_addr = p.1
  queues_nonempty : ∀ p ∈ mp.pending, p.2 ≠ []
  pending_keys_nodup : (mp.pending.map (fun p => p.1)).Nodup

theorem applyOp_add_cases (H : Transaction → String) (sigOk : Transaction → Bool)
    (sv : StateView) (tx : Transaction) (mp : Mempool) :
    applyOp H mp (MempoolOp.addTx sigOk sv tx) = mp ∨
    (lookupKey mp.by_hash (H tx) = none ∧
      applyOp H mp (MempoolOp.addTx sigOk sv tx) =
        { mp with pending := pushEntry mp.pending tx.from_addr tx,
                  by_hash := insertKey mp.by_hash (H tx) tx }) := by
  cases hval : validate_transaction sigOk sv tx with
  | error e => left; simp [applyOp, add_transaction, hval]
  | ok u =>
    by_cases hdup : (lookupKey mp.by_hash (H tx)).isSome
    · left; simp [applyOp, add_transaction, hval, hdup]
    · by_cases hfull : mp.by_hash.length ≥ mp.max_size
      · left; simp [applyOp, add_transaction, hval, hdup, hfull]
      · right
        refine ⟨Option.not_isSome_iff_eq_none.mp hdup, ?_⟩
        simp [applyOp, add_transaction, hval, hdup, hfull]

theorem pushEntry_cases {κ α : Type} [DecidableEq κ] (l : List (κ × List α)) (k : κ) (x : α) :
    (lookupKey l k = none ∧ pushEntry l k x = l ++ [(k, [x])]) ∨
    (∃ P1 q P2, l = P1 ++ (k, q) :: P2 ∧ k ∉ P1.map (fun p => p.1) ∧
      pushEntry l k x = P1 ++ (k, q ++ [x]) :: P2) := by
  cases hlp : lookupKey l k with
  | none => exact Or.inl ⟨rfl, pushEntry_of_lookup_none x hlp⟩
  | some q =>
    obtain ⟨P1, P2, hl, hnot⟩ := lookupKey_some_decomp hlp
    refine Or.inr ⟨P1, q, P2, hl, hnot, ?_⟩
    rw [hl, pushEntry_append_of_not_mem _ _ hnot, pushEntry_cons_self]

theorem queuedTxs_pushEntry (l : List (String × List Transaction)) (k : String)
    (x : Transaction) :
    (((pushEntry l k x).map (fun p => p.2)).flatten).Perm
      ((l.map (fun p => p.2)).flatten ++ [x]) := by
  rcases pushEntry_cases l k x with ⟨_, hpush⟩ | ⟨P1, q, P2, hl, _, hpush⟩
  · rw [hpush]
    simp
  · rw [hpush, hl]
    simp only [List.map_append, List.map_cons, List.flatten_append, List.flatten_cons,
      List.append_assoc]
    refine List.Perm.append_left _ ?_
    refine List.Perm.append_left _ ?_
    simpa using @List.perm_append_comm _ [x] _

theorem MempoolInv.add {H : Transaction → String} {mp : Mempool} (hinv : MempoolInv H mp)
    (sigOk : Transaction → Bool) (sv : StateView) (tx : Transaction) :
    MempoolInv H (applyOp H mp (MempoolOp.addTx sigOk sv tx)) := by
  rcases applyOp_add_cases H sigOk sv tx mp with heq | ⟨hnone, heq⟩
  · rw [heq]; exact hinv
  · rw [heq]
    have hins : insertKey mp.by_hash (H tx) tx = mp.by_hash ++ [(H tx, tx)] :=
      insertKey_of_lookup_none tx hnone
    have hkey : H tx ∉ mp.by_hash.map (fun p => p.1) := (lookupKey_eq_none_iff _ _).mp hnone
    have hknd : ((insertKey mp.by_hash (H tx) tx).map (fun p => p.1)).Nodup := by
      rw [hins]
      simp only [List.map_append, List.map_cons, List.map_nil]
      rw [List.nodup_append]
      refine ⟨hinv.keys_nodup, List.nodup_singleton _, ?_⟩
      intro a ha hb
      rw [List.mem_singleton] at hb
      exact hkey (hb ▸ ha)
    have hhk : ∀ p ∈ insertKey mp.by_hash (H tx) tx, H p.2 = p.1 := by
      intro p hp
      rw [hins] at hp
      rcases List.mem_append.mp hp with hold | hnew
      · exact hinv.hash_keyed p hold
      · rw [List.mem_singleton] at hnew
        subst hnew; rfl
    have hperm : (((pushEntry mp.pending tx.from_addr tx).map (fun p => p.2)).flatten).Perm
        ((insertKey mp.by_hash (H tx) tx).map (fun p => p.2)) := by
      refine (queuedTxs_pushEntry _ _ _).trans ?_
      rw [hins]
      simp only [List.map_append, List.map_cons, List.map_nil]
      exact hinv.queued_perm.append_right _
    rcases pushEntry_cases mp.pending tx.from_addr tx with ⟨hlp, hpush⟩ |
      ⟨P1, q, P2, hl, hnot, hpush⟩
    · have hkeyp : tx.from_addr ∉ mp.pending.map (fun p => p.1) :=
        (lookupKey_eq_none_iff _ _).mp hlp
      refine ⟨hknd, hhk, hperm, ?_, ?_, ?_⟩
      · intro p hp t ht
        rw [hpush] at hp
        rcases List.mem_append.mp hp with hold | hnew
        · exact hinv.sender_keyed p hold t ht
        · rw [List.mem_singleton] at hnew
          subst hnew
          rw [List.mem_singleton] at ht
          subst ht; rfl
      · intro p hp
        rw [hpush] at hp
        rcases List.mem_append.mp hp with hold | hnew
        · exact hinv.queues_nonempty p hold
        · rw [List.mem_singleton] at hnew
          subst hnew; simp
      · rw [hpush]
        simp only [List.map_append, List.map_cons, List.map_nil]
        rw [List.nodup_append]
        refine ⟨hinv.pending_keys_nodup, List.nodup_singleton _, ?_⟩
        intro a ha hb
        rw [List.mem_singleton] at hb
        exact hkeyp (hb ▸ ha)
    · refine ⟨hknd, hhk, hperm, ?_, ?_, ?_⟩
      · intro p hp t ht
        rw [hpush] at hp
        rcases List.mem_append.mp hp with h1 | h2
        · exact hinv.sender_keyed p (by rw [hl]; exact List.mem_append.mpr (Or.inl h1)) t ht
        · rcases List.mem_cons.mp h2 with hmid | h3
          · subst hmid
            rcases List.mem_append.mp ht with htq | htx
            · exact hinv.sender_keyed (tx.from_addr, q)
                (by rw [hl]; exact List.mem_append.mpr (Or.inr (List.mem_cons_self _ _))) t htq
            · rw [List.mem_singleton] at htx
              subst htx; rfl
          · exact hinv.sender_keyed p
              (by rw [hl]; exact List.mem_append.mpr (Or.inr (List.mem_cons_of_mem _ h3))) t ht
      · intro p hp
        rw [hpush] at hp
        rcases List.mem_append.mp hp with h1 | h2
        · exact hinv.queues_nonempty p (by rw [hl]; exact List.mem_append.mpr (Or.inl h1))
        · rcases List.mem_cons.mp h2 with hmid | h3
          · subst hmid; simp
          · exact hinv.queues_nonempty p
              (by rw [hl]; exact List.mem_append.mpr (Or.inr (List.mem_cons_of_mem _ h3)))
      · rw [hpush]
        have : (mp.pending.map (fun p => p.1)) =
            ((P1 ++ (tx.from_addr, q ++ [tx]) :: P2).map (fun p => p.1)) := by
          rw [hl]; simp
        rw [← this]
        exact hinv.pending_keys_nodup

theorem filter_bne_eq_erase (H : Transaction → String) (h : String) :
    ∀ (q : List Transaction) (tx : Transaction),
      H tx = h → tx ∈ q → q.countP (fun t => H t == h) = 1 →
      q.filter (fun t => H t != h) = q.erase tx := by
  intro q
  induction q with
  | nil => intro tx _ hm _; cases hm
  | cons t q' ih =>
    intro tx htx hm hc
    by_cases hteq : t = tx
    · subst hteq
      have hc0 : q'.countP (fun t => H t == h) = 0 := by
        rw [List.countP_cons] at hc
        simp only [htx, beq_self_eq_true, if_pos] at hc
        omega
      have hall : ∀ u ∈ q', (H u != h) = true := by
        intro u hu
        have hf : ¬((H u == h) = true) := (List.countP_eq_zero.mp hc0) u hu
        exact bne_iff_ne.mpr (fun hh => hf (beq_iff_eq.mpr hh))
      rw [List.erase_cons_head, List.filter_cons,
        if_neg (by simp [htx]), List.filter_eq_self.mpr hall]
    · have hm' : tx ∈ q' := by
        rcases List.mem_cons.mp hm with he | hq
        · exact absurd he.symm hteq
        · exact hq
      by_cases hbt : (H t == h) = true
      · exfalso
        have h1 : q'.countP (fun t => H t == h) = 0 := by
          rw [List.countP_cons] at hc
          simp only [hbt, if_pos] at hc
          omega
        have h2 : 0 < q'.countP (fun t => H t == h) :=
          List.countP_pos_iff.mpr ⟨tx, hm', by simp [htx]⟩
        omega
      · have hbt0 : (H t == h) = false := by
          cases hb : (H t == h) with
          | true => exact absurd hb hbt
          | false => rfl
        have hc' : q'.countP (fun t => H t == h) = 1 := by
          rw [List.countP_cons] at hc
          simp only [hbt0, if_neg, Bool.false_eq_true, if_false] at hc
          omega
        have hfil : (H t != h) = true := bne_iff_ne.mpr (ne_of_beq_false hbt0)
        rw [List.filter_cons, if_pos hfil,
          List.erase_cons_tail (by simp [hteq]), ih tx htx hm' hc']

theorem MempoolInv.remove {H : Transaction → String} {mp : Mempool} (hinv : MempoolInv H mp)
    (tx_hash : String) : MempoolInv H (applyOp H mp (MempoolOp.removeTx tx_hash)) := by
  show MempoolInv H (remove_transaction H mp tx_hash).2
  cases hlb : lookupKey mp.by_hash tx_hash with
  | none =>
    have : (remove_transaction H mp tx_hash).2 = mp := by
      unfold remove_transaction
      rw [hlb]
    rw [this]
    exact hinv
  | some tx =>
    obtain ⟨B1, B2, hB, hnotB1⟩ := lookupKey_some_decomp hlb
    have hHtx : H tx = tx_hash :=
      hinv.hash_keyed (tx_hash, tx)
        (by rw [hB]; exact List.mem_append.mpr (Or.inr (List.mem_cons_self _ _)))
    have hnotB2 : tx_hash ∉ B2.map (fun p => p.1) := by
      have hknd := hinv.keys_nodup
      rw [hB] at hknd
      simp only [List.map_append, List.map_cons] at hknd
      rw [List.nodup_middle] at hknd
      simp only [List.nodup_cons, List.mem_append] at hknd
      exact fun hh => hknd.1 (Or.inr hh)
    have herase : eraseKey mp.by_hash tx_hash = B1 ++ B2 := by
      rw [hB, eraseKey_append_of_not_mem _ hnotB1, eraseKey_cons_self]
    have hvalB : ∀ p ∈ B1 ++ B2, H p.2 ≠ tx_hash := by
      intro p hp
      have hpmem : p ∈ mp.by_hash := by
        rw [hB]
        rcases List.mem_append.mp hp with h1 | h2
        · exact List.mem_append.mpr (Or.inl h1)
        · exact List.mem_append.mpr (Or.inr (List.mem_cons_of_mem _ h2))
      rw [hinv.hash_keyed p hpmem]
      intro hh
      rcases List.mem_append.mp hp with h1 | h2
      · exact hnotB1 (hh ▸ List.mem_map.mpr ⟨p, h1, rfl⟩)
      · exact hnotB2 (hh ▸ List.mem_map.mpr ⟨p, h2, rfl⟩)
    have hvals : mp.by_hash.map (fun p => p.2) =
        B1.map (fun p => p.2) ++ tx :: B2.map (fun p => p.2) := by
      rw [hB]; simp
    have hcount : (queuedTxs mp).countP (fun t => H t == tx_hash) = 1 := by
      rw [hinv.queued_perm.countP_eq, hvals, List.countP_append, List.countP_cons]
      have h1 : (B1.map (fun p => p.2)).countP (fun t => H t == tx_hash) = 0 := by
        rw [List.countP_eq_zero]
        intro a ha
        obtain ⟨p, hp, rfl⟩ := List.mem_map.mp ha
        simpa using hvalB p (List.mem_append.mpr (Or.inl hp))
      have h2 : (B2.map (fun p => p.2)).countP (fun t => H t == tx_hash) = 0 := by
        rw [List.countP_eq_zero]
        intro a ha
        obtain ⟨p, hp, rfl⟩ := List.mem_map.mp ha
        simpa using hvalB p (List.mem_append.mpr (Or.inr hp))
      rw [h1, h2]
      simp [hHtx]
    have htxq : tx ∈ queuedTxs mp :=
      hinv.queued_perm.mem_iff.mpr
        (by rw [hvals]; exact List.mem_append.mpr (Or.inr (List.mem_cons_self _ _)))
    have htxq' : tx ∈ (mp.pending.map (fun p => p.2)).flatten := htxq
    obtain ⟨ql, hql, htxql⟩ := List.mem_flatten.mp htxq'
    obtain ⟨p0, hp0, hp0q⟩ := List.mem_map.mp hql
    have htxq0 : tx ∈ p0.2 := by rw [hp0q]; exact htxql
    have hfa : tx.from_addr = p0.1 := hinv.sender_keyed p0 hp0 tx htxq0
    have hlp : lookupKey mp.pending tx.from_addr = some p0.2 := by
      rw [hfa]
      exact lookupKey_of_mem_nodup hinv.pending_keys_nodup hp0
    obtain ⟨P1, P2, hP, hnotP1⟩ := lookupKey_some_decomp hlp
    have hnotP2 : tx.from_addr ∉ P2.map (fun p => p.1) := by
      have hpnd := hinv.pending_keys_nodup
      rw [hP] at hpnd
      simp only [List.map_append, List.map_cons] at hpnd
      rw [List.nodup_middle] at hpnd
      simp only [List.nodup_cons, List.mem_append] at hpnd
      exact fun hh => hpnd.1 (Or.inr hh)
    have hflat : queuedTxs mp =
        (P1.map (fun p => p.2)).flatten ++
          (p0.2 ++ (P2.map (fun p => p.2)).flatten) := by
      unfold queuedTxs
      rw [hP]
      simp
    have hsum : ((P1.map (fun p => p.2)).flatten).countP (fun t => H t == tx_hash) +
        (p0.2.countP (fun t => H t == tx_hash) +
          ((P2.map (fun p => p.2)).flatten).countP (fun t => H t == tx_hash)) = 1 := by
      have htmp := hcount
      rw [hflat, List.countP_append, List.countP_append] at htmp
      exact htmp
    have hq0pos : 0 < p0.2.countP (fun t => H t == tx_hash) :=
      List.countP_pos_iff.mpr ⟨tx, htxq0, by simp [hHtx]⟩
    have hq0c : p0.2.countP (fun t => H t == tx_hash) = 1 := by omega
    have hF1c : ((P1.map (fun p => p.2)).flatten).countP (fun t => H t == tx_hash) = 0 := by omega
    have hF2c : ((P2.map (fun p => p.2)).flatten).countP (fun t => H t == tx_hash) = 0 := by omega
    have htxnF1 : tx ∉ (P1.map (fun p => p.2)).flatten := by
      intro hh
      have hpos : 0 < ((P1.map (fun p => p.2)).flatten).countP (fun t => H t == tx_hash) :=
        List.countP_pos_iff.mpr ⟨tx, hh, by simp [hHtx]⟩
      omega
    have htxnB1 : tx ∉ B1.map (fun p => p.2) := by
      intro hh
      obtain ⟨p, hp, hpe⟩ := List.mem_map.mp hh
      exact hvalB p (List.mem_append.mpr (Or.inl hp)) (by rw [hpe, hHtx])
    have hfe : p0.2.filter (fun t => H t != tx_hash) = p0.2.erase tx :=
      filter_bne_eq_erase H tx_hash p0.2 tx hHtx htxq0 hq0c
    have hOld : ((P1.map (fun p => p.2)).flatten ++
        (p0.2 ++ (P2.map (fun p => p.2)).flatten)).Perm
        (B1.map (fun p => p.2) ++ tx :: B2.map (fun p => p.2)) := by
      rw [← hflat, ← hvals]
      exact hinv.queued_perm
    have hErased : ((P1.map (fun p => p.2)).flatten ++
        (p0.2.erase tx ++ (P2.map (fun p => p.2)).flatten)).Perm
        (B1.map (fun p => p.2) ++ B2.map (fun p => p.2)) := by
      have hh := hOld.erase tx
      rw [List.erase_append_right _ htxnF1, List.erase_append_left _ htxq0,
        List.erase_append_right _ htxnB1, List.erase_cons_head] at hh
      exact hh
    have hres : (remove_transaction H mp tx_hash).2 =
        { mp with
          pending := if (p0.2.erase tx).isEmpty then eraseKey mp.pending tx.from_addr
                     else insertKey mp.pending tx.from_addr (p0.2.erase tx),
          by_hash := eraseKey mp.by_hash tx_hash } := by
      unfold remove_transaction
      rw [hlb]
      dsimp only
      rw [hlp]
      dsimp only
      rw [hfe]
    rw [hres]
    have hknd' : ((B1 ++ B2).map (fun p => p.1)).Nodup := by
      have hknd := hinv.keys_nodup
      rw [hB] at hknd
      simp only [List.map_append, List.map_cons] at hknd
      rw [List.nodup_middle] at hknd
      simp only [List.nodup_cons] at hknd
      simpa using hknd.2
    have hhk' : ∀ p ∈ B1 ++ B2, H p.2 = p.1 := by
      intro p hp
      refine hinv.hash_keyed p ?_
      rw [hB]
      rcases List.mem_append.mp hp with h1 | h2
      · exact List.mem_append.mpr (Or.inl h1)
      · exact List.mem_append.mpr (Or.inr (List.mem_cons_of_mem _ h2))
    by_cases hemp : (p0.2.erase tx).isEmpty
    · have hempnil : p0.2.erase tx = [] := List.isEmpty_iff.mp hemp
      have heraseP : eraseKey mp.pending tx.from_addr = P1 ++ P2 := by
        rw [hP, eraseKey_append_of_not_mem _ hnotP1, eraseKey_cons_self]
      rw [if_pos hemp, heraseP]
      refine ⟨?_, ?_, ?_, ?_, ?_, ?_⟩
      · simpa [herase] using hknd'
      · intro p hp
        rw [herase] at hp
        exact hhk' p hp
      · show (((P1 ++ P2).map (fun p => p.2)).flatten).Perm
          ((eraseKey mp.by_hash tx_hash).map (fun p => p.2))
        rw [herase]
        have hleft : ((P1 ++ P2).map (fun p => p.2)).flatten =
            (P1.map (fun p => p.2)).flatten ++
              (p0.2.erase tx ++ (P2.map (fun p => p.2)).flatten) := by
          rw [hempnil]
          simp
        rw [hleft]
        simpa using hErased
      · intro p hp t ht
        refine hinv.sender_keyed p ?_ t ht
        rw [hP]
        rcases List.mem_append.mp hp with h1 | h2
        · exact List.mem_append.mpr (Or.inl h1)
        · exact List.mem_append.mpr (Or.inr (List.mem_cons_of_mem _ h2))
      · intro p hp
        refine hinv.queues_nonempty p ?_
        rw [hP]
        rcases List.mem_append.mp hp with h1 | h2
        · exact List.mem_append.mpr (Or.inl h1)
        · exact List.mem_append.mpr (Or.inr (List.mem_cons_of_mem _ h2))
      · have hpnd := hinv.pending_keys_nodup
        rw [hP] at hpnd
        simp only [List.map_append, List.map_cons] at hpnd
        rw [List.nodup_middle] at hpnd
        simp only [List.nodup_cons] at hpnd
        simpa using hpnd.2
    · have hinsP : insertKey mp.pending tx.from_addr (p0.2.erase tx) =
          P1 ++ (tx.from_addr, p0.2.erase tx) :: P2 := by
        rw [hP, insertKey_append_of_not_mem _ _ hnotP1, insertKey_cons_self]
      rw [if_neg hemp, hinsP]
      refine ⟨?_, ?_, ?_, ?_, ?_, ?_⟩
      · simpa [herase] using hknd'
      · intro p hp
        rw [herase] at hp
        exact hhk' p hp
      · show (((P1 ++ (tx.from_addr, p0.2.erase tx) :: P2).map (fun p => p.2)).flatten).Perm
          ((eraseKey mp.by_hash tx_hash).map (fun p => p.2))
        rw [herase]
        have hleft : ((P1 ++ (tx.from_addr, p0.2.erase tx) :: P2).map (fun p => p.2)).flatten =
            (P1.map (fun p => p.2)).flatten ++
              (p0.2.erase tx ++ (P2.map (fun p => p.2)).flatten) := by
          simp
        rw [hleft]
        simpa using hErased
      · intro p hp t ht
        rcases List.mem_append.mp hp with h1 | h2
        · refine hinv.sender_keyed p ?_ t ht
          rw [hP]
          exact List.mem_append.mpr (Or.inl h1)
        · rcases List.mem_cons.mp h2 with hmid | h3
          · subst hmid
            have ht' : t ∈ p0.2 := List.mem_of_mem_erase ht
            exact hinv.sender_keyed (tx.from_addr, p0.2)
              (by rw [hP]; exact List.mem_append.mpr (Or.inr (List.mem_cons_self _ _))) t ht'
          · refine hinv.sender_keyed p ?_ t ht
            rw [hP]
            exact List.mem_append.mpr (Or.inr (List.mem_cons_of_mem _ h3))
      · intro p hp
        rcases List.mem_append.mp hp with h1 | h2
        · refine hinv.queues_nonempty p ?_
          rw [hP]
          exact List.mem_append.mpr (Or.inl h1)
        · rcases List.mem_cons.mp h2 with hmid | h3
          · subst hmid
            intro hh
            exact hemp (by rw [List.isEmpty_iff]; exact hh)
          · refine hinv.queues_nonempty p ?_
            rw [hP]
            exact List.mem_append.mpr (Or.inr (List.mem_cons_of_mem _ h3))
      · have hpnd := hinv.pending_keys_nodup
        rw [hP] at hpnd
        simpa using hpnd

theorem MempoolInv.clear_op (H : Transaction → String) (mp : Mempool) :
    MempoolInv H (applyOp H mp MempoolOp.clearAll) := by
  refine ⟨by simp [applyOp, Mempool.clear], by simp [applyOp, Mempool.clear],
    by simp [queuedTxs, applyOp, Mempool.clear],
    by simp [applyOp, Mempool.clear], by simp [applyOp, Mempool.clear],
    by simp [applyOp, Mempool.clear]⟩

theorem MempoolInv.init (H : Transaction → String) (max_size : Nat) :
    MempoolInv H (Mempool.new max_size) := by
  refine ⟨by simp [Mempool.new], by simp [Mempool.new], by simp [queuedTxs, Mempool.new],
    by simp [Mempool.new], by simp [Mempool.new], by simp [Mempool.new]⟩

theorem MempoolInv.preserved {H : Transaction → String} :
    ∀ (ops : List MempoolOp) (mp : Mempool),
      MempoolInv H mp → MempoolInv H (applyOps H mp ops) := by
  intro ops
  induction ops with
  | nil => intro mp h; exact h
  | cons op rest ih =>
    intro mp h
    show MempoolInv H (applyOps H (applyOp H mp op) rest)
    refine ih _ ?_
    cases op with
    | addTx sigOk sv tx => exact h.add sigOk sv tx
    | removeTx tx_hash => exact h.remove tx_hash
    | clearAll => exact MempoolInv.clear_op H mp

/-- C9: after any sequence of `add_transaction`, `remove_transaction`
and `clear` operations starting from a fresh pool, the two indices
agree: a transaction is a value of the by-hash map exactly when it sits
in some sender's FIFO queue, the total number of queued transactions
equals the size of the by-hash map, and every per-sender queue present
in the map is non-empty. -/
theorem mempool_indices_agree (H : Transaction → String) (max_size : Nat)
    (ops : List MempoolOp) :
    (∀ tx : Transaction,
      tx ∈ (applyOps H (Mempool.new max_size) ops).by_hash.map (fun p => p.2) ↔
      ∃ p ∈ (applyOps H (Mempool.new max_size) ops).pending, tx ∈ p.2) ∧
    (queuedTxs (applyOps H (Mempool.new max_size) ops)).length =
      (applyOps H (Mempool.new max_size) ops).by_hash.length ∧
    (∀ p ∈ (applyOps H (Mempool.new max_size) ops).pending, p.2 ≠ []) := by
  have hinv := MempoolInv.preserved ops (Mempool.new max_size)
    (MempoolInv.init H max_size)
  refine ⟨?_, ?_, hinv.queues_nonempty⟩
  · intro tx
    constructor
    · intro h
      have h' := hinv.queued_perm.mem_iff.mpr h
      obtain ⟨l, hl, htl⟩ := List.mem_flatten.mp h'
      obtain ⟨p, hp, hpe⟩ := List.mem_map.mp hl
      exact ⟨p, hp, by rw [hpe]; exact htl⟩
    · rintro ⟨p, hp, htp⟩
      refine hinv.queued_perm.mem_iff.mp ?_
      exact List.mem_flatten.mpr ⟨p.2, List.mem_map.mpr ⟨p, hp, rfl⟩, htp⟩
  · rw [hinv.queued_perm.length_eq, List.length_map]

/-- Witness for `get_transactions_for_block_spec` at a concrete pool,
bound and ledger view. -/
theorem get_transactions_for_block_spec_witness :
    ((Mempool.new 5).get_transactions_for_block 3 cSv0).length ≤ 3 ∧
    (∀ tx ∈ (Mempool.new 5).get_transactions_for_block 3 cSv0,
      tx.nonce = cSv0.nonceOf tx.from_addr) :=
  ⟨(get_transactions_for_block_spec (Mempool.new 5) 3 cSv0).2.1,
   (get_transactions_for_block_spec (Mempool.new 5) 3 cSv0).1⟩

/-- Witness for `mempool_indices_agree` after one concrete successful
admission. -/
theorem mempool_indices_agree_witness :
    (queuedTxs (applyOps cH (Mempool.new 5) [MempoolOp.addTx cSig cSv0 cTx])).length =
      (applyOps cH (Mempool.new 5) [MempoolOp.addTx cSig cSv0 cTx]).by_hash.length ∧
    (∀ p ∈ (applyOps cH (Mempool.new 5) [MempoolOp.addTx cSig cSv0 cTx]).pending, p.2 ≠ []) :=
  ⟨(mempool_indices_agree cH 5 [MempoolOp.addTx cSig cSv0 cTx]).2.1,
   (mempool_indices_agree cH 5 [MempoolOp.addTx cSig cSv0 cTx]).2.2⟩
